import Mathlib

/-!
Shallow embedding of the nakamoto client core: the SPV event mapper
(src/client/src/spv.rs) and the Handle wait helpers (src/client/src/client.rs).

Modelling conventions:
* A Rust Height (u64) is a Nat: the mapper only assigns and compares heights,
  it never does arithmetic on them, so no overflow reduction is needed.
* The externally supplied hash functions (Block::block_hash, which hashes the
  header, and Transaction::txid) are abstract: block hashing is a parameter
  bh of every function that uses it, and the Txid of a transaction is the
  transaction value itself, since the mapper treats both opaquely.
* The emitter side effect is an explicit ordered list of emitted events.
* A Rust assert (and debug_assert) is a guard: a function whose assertion
  fails returns none, so an event sequence is accepted exactly when every
  step returns some.
* The pending HashSet of heights is a duplicate-free list: insert is a no-op
  when the height is already present, remove erases it, exactly the HashSet
  interface the mapper uses (insert, remove, is_empty).
-/

namespace Nakamoto

/-- Block height (Rust u64 Height). -/
abbrev Height := Nat

/-- Block hash, abstract. -/
abbrev BlockHash := Nat

/-- Block header, abstract: only its hash is ever taken. -/
abbrev Header := Nat

/-- Transaction id, abstract. -/
abbrev Txid := Nat

/-- Transaction, abstract. -/
abbrev Tx := Nat

/-- Transaction::txid, modelled as the identity since transactions are opaque
to the mapper. -/
def Tx.txid (t : Tx) : Txid := t

/-- Socket address: an IP (abstract, 0 is the unspecified address) and a port. -/
structure SocketAddr where
  ip : Nat
  port : Nat
deriving DecidableEq, Repr

/-- IpAddr::is_unspecified: true exactly for the all-zero address. -/
def Ip.is_unspecified (ip : Nat) : Bool := ip == 0

/-- Connection link direction (Rust Link enum). -/
inductive Link where
  | inbound
  | outbound
deriving DecidableEq, Repr

/-- Peer service flags: a u64 bitmask. -/
abbrev ServiceFlags := Nat

/-- ServiceFlags::has(flags): all bits of the argument are set. -/
def ServiceFlags.has (a b : ServiceFlags) : Bool := a ||| b == a

/-- A Bitcoin block: header plus transaction data. Block::block_hash hashes
the header, so the hash is bh applied to the header field. -/
structure Block where
  header : Header
  txdata : List Tx
deriving DecidableEq, Repr

/-- The fields of an fsm Peer that Handle::wait_for_peers reads
(addr, height, services); the remaining fields are never consulted there. -/
structure Peer where
  addr : SocketAddr
  height : Height
  services : ServiceFlags
deriving DecidableEq, Repr

/-- Transaction status (spv.rs TxStatus). -/
inductive TxStatus where
  | Unconfirmed
  | Acknowledged (peer : SocketAddr)
  | Confirmed (height : Height) (block : BlockHash)
  | Reverted
  | Stale (replacedBy : Txid) (block : BlockHash)
deriving DecidableEq, Repr

/-- Client events (crate::client::Event), restricted to the variants the
mapper emits. -/
inductive Event where
  | Ready (tip : Height) (filterTip : Height)
  | PeerConnected (addr : SocketAddr) (link : Link)
  | PeerConnectionFailed (addr : SocketAddr) (error : Nat)
  | PeerNegotiated (addr : SocketAddr) (link : Link) (services : ServiceFlags)
      (userAgent : Nat) (height : Height) (version : Nat)
  | PeerDisconnected (addr : SocketAddr) (reason : Nat)
  | PeerHeightUpdated (height : Height)
  | BlockConnected (header : Header) (hash : BlockHash) (height : Height)
  | BlockDisconnected (header : Header) (hash : BlockHash) (height : Height)
  | BlockMatched (height : Height) (hash : BlockHash) (header : Header)
      (transactions : List Tx)
  | FeeEstimated (block : BlockHash) (height : Height) (fees : Nat)
  | TxStatusChanged (txid : Txid) (status : TxStatus)
  | FilterProcessed (height : Height) (matched : Bool) (valid : Bool)
      (block : BlockHash)
  | Synced (height : Height) (tip : Height)
deriving DecidableEq, Repr

/-- Protocol (fsm) events: the variants the client matches on. The Other
constructor stands for every remaining fsm event variant; the mapper ignores
them all (the catch-all match arm). -/
inductive FsmEvent where
  | Ready (height : Height) (filterHeight : Height)
  | PeerConnected (addr : SocketAddr) (link : Link)
  | PeerConnectionFailed (addr : SocketAddr) (error : Nat)
  | PeerNegotiated (addr : SocketAddr) (link : Link) (services : ServiceFlags)
      (userAgent : Nat) (height : Height) (version : Nat)
  | PeerDisconnected (addr : SocketAddr) (reason : Nat)
  | PeerHeightUpdated (height : Height)
  | ChainSynced (hash : BlockHash) (height : Height)
  | BlockConnected (header : Header) (height : Height)
  | BlockDisconnected (header : Header) (height : Height)
  | BlockProcessed (block : Block) (height : Height) (fees : Option Nat)
  | Confirmed (transaction : Tx) (height : Height) (block : BlockHash)
  | Acknowledged (txid : Txid) (peer : SocketAddr)
  | RescanStarted (start : Height)
  | FilterProcessed (block : BlockHash) (height : Height) (matched : Bool)
      (valid : Bool)
  | Other
deriving DecidableEq, Repr

/-- HashSet::insert on the pending set: a no-op when the element is already
present. -/
def hsInsert (h : Height) (l : List Height) : List Height :=
  if h ∈ l then l else h :: l

/-- The SPV event mapper state (spv.rs Mapper). -/
structure Mapper where
  tip : Height
  sync_height : Height
  filter_height : Height
  block_height : Height
  pending : List Height
deriving DecidableEq, Repr

/-- Mapper::new. -/
def Mapper.new : Mapper :=
  { tip := 0, sync_height := 0, filter_height := 0, block_height := 0,
    pending := [] }

/-- Mapper::process_filter. The Rust debug_assert (height >= filter_height)
is the guard; on success it inserts the height into pending when matched,
advances filter_height, and emits one FilterProcessed event. -/
def Mapper.process_filter (m : Mapper) (block : BlockHash) (height : Height)
    (matched valid : Bool) : Option (Mapper × List Event) :=
  if m.filter_height ≤ height then
    some ({ m with
            pending := if matched then hsInsert height m.pending else m.pending,
            filter_height := height },
          [Event.FilterProcessed height matched valid block])
  else
    none

/-- Mapper::process_block. If the height is not pending the block is
unsolicited and only the hash is returned; otherwise the height is removed
from pending, the debug_assert (height >= block_height) is the guard,
block_height advances and one BlockMatched event is emitted. The returned
triple is (state, emitted events, returned hash). -/
def Mapper.process_block (bh : Header → BlockHash) (m : Mapper) (block : Block)
    (height : Height) : Option (Mapper × List Event × BlockHash) :=
  let hash := bh block.header
  if height ∈ m.pending then
    if m.block_height ≤ height then
      some ({ m with
              pending := m.pending.erase height,
              block_height := height },
            [Event.BlockMatched height hash block.header block.txdata], hash)
    else
      none
  else
    some (m, [], hash)

/-- The match block of Mapper::process: the event-specific handling, before
the trailing assertions and the Synced emission step. -/
def Mapper.handle (bh : Header → BlockHash) (m : Mapper) (e : FsmEvent) :
    Option (Mapper × List Event) :=
  match e with
  | .Ready height filterHeight =>
      some (m, [Event.Ready height filterHeight])
  | .PeerConnected addr link =>
      some (m, [Event.PeerConnected addr link])
  | .PeerConnectionFailed addr error =>
      some (m, [Event.PeerConnectionFailed addr error])
  | .PeerNegotiated addr link services userAgent height version =>
      some (m, [Event.PeerNegotiated addr link services userAgent height version])
  | .PeerDisconnected addr reason =>
      some (m, [Event.PeerDisconnected addr reason])
  | .PeerHeightUpdated height =>
      some (m, [Event.PeerHeightUpdated height])
  | .ChainSynced _ height =>
      some ({ m with tip := height }, [])
  | .BlockConnected header height =>
      some (m, [Event.BlockConnected header (bh header) height])
  | .BlockDisconnected header height =>
      some (m, [Event.BlockDisconnected header (bh header) height])
  | .BlockProcessed block height fees =>
      match m.process_block bh block height with
      | some (m1, evs, hash) =>
          some (m1, evs ++ (match fees with
                            | some f => [Event.FeeEstimated hash height f]
                            | none => []))
      | none => none
  | .Confirmed transaction height block =>
      some (m, [Event.TxStatusChanged (Tx.txid transaction)
                  (TxStatus.Confirmed height block)])
  | .Acknowledged txid peer =>
      some (m, [Event.TxStatusChanged txid (TxStatus.Acknowledged peer)])
  | .RescanStarted start =>
      some ({ m with
              pending := [],
              filter_height := start,
              sync_height := start,
              block_height := start }, [])
  | .FilterProcessed block height matched valid =>
      m.process_filter block height matched valid
  | .Other =>
      some (m, [])

/-- The reporting height of the Synced emission step: filter_height when no
matched blocks are outstanding, block_height otherwise. -/
def reportHeight (m : Mapper) : Height :=
  if m.pending = [] then m.filter_height else m.block_height

/-- Mapper::process: event-specific handling, then the two assertions
(block_height <= filter_height and sync_height <= filter_height, guards
here), then the Synced emission step. -/
def Mapper.process (bh : Header → BlockHash) (m : Mapper) (e : FsmEvent) :
    Option (Mapper × List Event) :=
  match m.handle bh e with
  | none => none
  | some (m1, evs) =>
      if m1.block_height ≤ m1.filter_height ∧ m1.sync_height ≤ m1.filter_height
      then
        if m1.sync_height < reportHeight m1 then
          some ({ m1 with sync_height := reportHeight m1 },
                evs ++ [Event.Synced (reportHeight m1) m1.tip])
        else
          some (m1, evs)
      else
        none

/-- Mapper states reachable from Mapper::new by accepted events. -/
inductive Reachable (bh : Header → BlockHash) : Mapper → Prop where
  | refl : Reachable bh Mapper.new
  | step {m m' : Mapper} {e : FsmEvent} {evs : List Event} :
      Reachable bh m → m.process bh e = some (m', evs) → Reachable bh m'

/-- A concrete block-hash function used to instantiate the abstract hash in
concrete runs. -/
def hid : Header → BlockHash := fun h => h

/-- The inductive invariant of the mapper: the two asserted height orderings,
the post-condition of the Synced emission step, and the filter-height bound
on pending. -/
def Inv (m : Mapper) : Prop :=
  m.block_height ≤ m.filter_height ∧
  m.sync_height ≤ m.filter_height ∧
  reportHeight m ≤ m.sync_height ∧
  ∀ h ∈ m.pending, h ≤ m.filter_height

/-! ### The Handle wait helpers (client.rs) -/

/-- HashMap::insert for the negotiated-peer map of wait_for_peers: replace
the value when the address is present, append otherwise. -/
def insertAddr (k : SocketAddr) (v : Height × ServiceFlags) :
    List (SocketAddr × Height × ServiceFlags) →
    List (SocketAddr × Height × ServiceFlags)
  | [] => [(k, v.1, v.2)]
  | p :: rest =>
      if p.1 = k then (k, v.1, v.2) :: rest else p :: insertAddr k v rest

/-- The event-wait closure of Handle::wait_for_peers: on each Negotiated
event, record the peer when its services include the required flags, and
finish once the map has exactly count entries. An exhausted event stream is
the timeout (none). -/
def waitForPeersLoop (count : Nat) (required : ServiceFlags)
    (negotiated : List (SocketAddr × Height × ServiceFlags)) :
    List FsmEvent → Option (List (SocketAddr × Height × ServiceFlags))
  | [] => none
  | e :: rest =>
      match e with
      | .PeerNegotiated addr _link services _userAgent height _version =>
          let negotiated' :=
            if services.has required then insertAddr addr (height, services) negotiated
            else negotiated
          if negotiated'.length = count then some negotiated'
          else waitForPeersLoop count required negotiated' rest
      | _ => waitForPeersLoop count required negotiated rest

/-- Handle::wait_for_peers, as a function of the GetPeers response (the
currently negotiated peers matching the required services) and of the
subscribed event stream: if exactly count peers already match, return them
immediately, without consulting the event stream; otherwise seed the map
with them and wait. -/
def wait_for_peers (count : Nat) (required : ServiceFlags)
    (negotiated : List Peer) (events : List FsmEvent) :
    Option (List (SocketAddr × Height × ServiceFlags)) :=
  if negotiated.length = count then
    some (negotiated.map fun p => (p.addr, p.height, p.services))
  else
    waitForPeersLoop count required
      (List.foldl (fun acc p => insertAddr p.addr (p.height, p.services) acc)
        [] negotiated)
      events

/-- The address predicate of Handle::connect: the connected address is the
requested one, or the requested IP is unspecified and the ports agree. -/
def connectMatches (addr a : SocketAddr) : Bool :=
  a == addr || (Ip.is_unspecified addr.ip && a.port == addr.port)

/-- The wait closure of Handle::connect: a Connected event with a matching
address yields its link, every other event yields nothing. -/
def connectStep (addr : SocketAddr) : FsmEvent → Option Link
  | .PeerConnected a link =>
      if connectMatches addr a then some link else none
  | _ => none

/-- Handle::connect, as a function of the subscribed event stream: return
the link of the first Connected event whose address matches (event::wait
with the connect predicate); an exhausted stream is the timeout (none). -/
def connect (addr : SocketAddr) (events : List FsmEvent) : Option Link :=
  events.findSome? (connectStep addr)

/-! ### Helper lemmas about one processing step -/

theorem process_block_of_mem {bh : Header → BlockHash} {m : Mapper}
    {block : Block} {height : Height}
    (hmem : height ∈ m.pending) (hbl : m.block_height ≤ height) :
    m.process_block bh block height =
      some ({ m with pending := m.pending.erase height, block_height := height },
            [Event.BlockMatched height (bh block.header) block.header block.txdata],
            bh block.header) := by
  simp only [Mapper.process_block]
  rw [if_pos hmem, if_pos hbl]

theorem process_block_of_not_mem {bh : Header → BlockHash} {m : Mapper}
    {block : Block} {height : Height} (hmem : height ∉ m.pending) :
    m.process_block bh block height = some (m, [], bh block.header) := by
  simp only [Mapper.process_block]
  rw [if_neg hmem]

theorem process_block_none {bh : Header → BlockHash} {m : Mapper}
    {block : Block} {height : Height}
    (hmem : height ∈ m.pending) (hbl : ¬ m.block_height ≤ height) :
    m.process_block bh block height = none := by
  simp only [Mapper.process_block]
  rw [if_pos hmem, if_neg hbl]

theorem process_filter_of_le {m : Mapper} {block : BlockHash} {height : Height}
    {matched valid : Bool} (hfl : m.filter_height ≤ height) :
    m.process_filter block height matched valid =
      some ({ m with
              pending := if matched then hsInsert height m.pending else m.pending,
              filter_height := height },
            [Event.FilterProcessed height matched valid block]) := by
  simp only [Mapper.process_filter]
  rw [if_pos hfl]

theorem process_filter_none {m : Mapper} {block : BlockHash} {height : Height}
    {matched valid : Bool} (hfl : ¬ m.filter_height ≤ height) :
    m.process_filter block height matched valid = none := by
  simp only [Mapper.process_filter]
  rw [if_neg hfl]

theorem process_handle_eq {bh : Header → BlockHash} {m m1 : Mapper}
    {e : FsmEvent} {evs1 : List Event}
    (hh : m.handle bh e = some (m1, evs1))
    (h1 : m1.block_height ≤ m1.filter_height)
    (h2 : m1.sync_height ≤ m1.filter_height) :
    m.process bh e =
      (if m1.sync_height < reportHeight m1 then
        some ({ m1 with sync_height := reportHeight m1 },
              evs1 ++ [Event.Synced (reportHeight m1) m1.tip])
      else
        some (m1, evs1)) := by
  simp only [Mapper.process, hh]
  rw [if_pos (And.intro h1 h2)]

theorem process_some_elim {bh : Header → BlockHash} {m m' : Mapper}
    {e : FsmEvent} {evs : List Event}
    (hp : m.process bh e = some (m', evs)) :
    ∃ m1 evs1, m.handle bh e = some (m1, evs1) ∧
      m1.block_height ≤ m1.filter_height ∧
      m1.sync_height ≤ m1.filter_height ∧
      ((m1.sync_height < reportHeight m1 ∧
        m' = { m1 with sync_height := reportHeight m1 } ∧
        evs = evs1 ++ [Event.Synced (reportHeight m1) m1.tip]) ∨
       (reportHeight m1 ≤ m1.sync_height ∧ m' = m1 ∧ evs = evs1)) := by
  cases hh : m.handle bh e with
  | none => simp only [Mapper.process, hh] at hp; cases hp
  | some p =>
    obtain ⟨m1, evs1⟩ := p
    simp only [Mapper.process, hh] at hp
    refine ⟨m1, evs1, rfl, ?_⟩
    by_cases hg : m1.block_height ≤ m1.filter_height ∧
        m1.sync_height ≤ m1.filter_height
    · rw [if_pos hg] at hp
      refine ⟨hg.1, hg.2, ?_⟩
      by_cases hs : m1.sync_height < reportHeight m1
      · rw [if_pos hs] at hp
        obtain ⟨h1, h2⟩ := Prod.mk.injEq .. ▸ Option.some.inj hp
        exact Or.inl ⟨hs, h1.symm, h2.symm⟩
      · rw [if_neg hs] at hp
        obtain ⟨h1, h2⟩ := Prod.mk.injEq .. ▸ Option.some.inj hp
        exact Or.inr ⟨Nat.le_of_not_lt hs, h1.symm, h2.symm⟩
    · rw [if_neg hg] at hp
      cases hp

/-- The fields of the state after one processing step agree with the state
after the handling phase, except possibly sync_height. -/
theorem process_some_frame {bh : Header → BlockHash} {m m' : Mapper}
    {e : FsmEvent} {evs : List Event}
    (hp : m.process bh e = some (m', evs)) :
    ∃ m1 evs1, m.handle bh e = some (m1, evs1) ∧
      m'.tip = m1.tip ∧ m'.filter_height = m1.filter_height ∧
      m'.block_height = m1.block_height ∧ m'.pending = m1.pending := by
  obtain ⟨m1, evs1, hh, -, -, hd⟩ := process_some_elim hp
  refine ⟨m1, evs1, hh, ?_⟩
  rcases hd with ⟨-, rfl, -⟩ | ⟨-, rfl, -⟩ <;> exact ⟨rfl, rfl, rfl, rfl⟩

/-- Facts about the handling phase, established by one case analysis over
the protocol event. -/
theorem handle_facts {bh : Header → BlockHash} {m m1 : Mapper}
    {e : FsmEvent} {evs1 : List Event}
    (hh : m.handle bh e = some (m1, evs1)) :
    (∀ ht tp, Event.Synced ht tp ∉ evs1) ∧
    ((∀ s, e ≠ FsmEvent.RescanStarted s) → m1.sync_height = m.sync_height) ∧
    ((∀ h ∈ m.pending, h ≤ m.filter_height) →
      ∀ h ∈ m1.pending, h ≤ m1.filter_height) ∧
    (∀ h, h ∈ m1.pending → h ∉ m.pending →
      ∃ blk valid, e = FsmEvent.FilterProcessed blk h true valid ∧
        m.filter_height ≤ h ∧ m1.filter_height = h) ∧
    (∀ h, h ∈ m.pending → h ∉ m1.pending →
      (∃ blk fees, e = FsmEvent.BlockProcessed blk h fees ∧
        m.block_height ≤ h ∧ m1.block_height = h) ∨
      (∃ s, e = FsmEvent.RescanStarted s)) := by
  cases e with
  | BlockProcessed block height fees =>
      by_cases hmem : height ∈ m.pending
      · by_cases hbl : m.block_height ≤ height
        · rw [Mapper.handle, process_block_of_mem hmem hbl] at hh
          simp only [Option.some.injEq, Prod.mk.injEq] at hh
          obtain ⟨rfl, rfl⟩ := hh
          refine ⟨?_, fun _ => rfl, ?_, ?_, ?_⟩
          · intro ht tp hmem'
            cases fees <;> simp at hmem'
          · intro hb h hmem'
            exact hb h (List.mem_of_mem_erase hmem')
          · intro h hmem' hnot
            exact absurd (List.mem_of_mem_erase hmem') hnot
          · intro h hin hout
            have heq : h = height := by
              by_contra hne
              exact hout ((List.mem_erase_of_ne hne).mpr hin)
            subst heq
            exact Or.inl ⟨block, fees, rfl, hbl, rfl⟩
        · rw [Mapper.handle, process_block_none hmem hbl] at hh
          cases hh
      · rw [Mapper.handle, process_block_of_not_mem hmem] at hh
        simp only [List.nil_append, Option.some.injEq, Prod.mk.injEq] at hh
        obtain ⟨rfl, rfl⟩ := hh
        refine ⟨?_, fun _ => rfl, fun hb => hb, ?_, ?_⟩
        · intro ht tp hmem'
          cases fees <;> simp at hmem'
        · intro h hin hout; exact absurd hin hout
        · intro h hin hout; exact absurd hin hout
  | RescanStarted start =>
      simp only [Mapper.handle, Option.some.injEq, Prod.mk.injEq] at hh
      obtain ⟨rfl, rfl⟩ := hh
      refine ⟨by simp, ?_, ?_, ?_, ?_⟩
      · intro hne; exact absurd rfl (hne start)
      · intro _ h hmem'; cases hmem'
      · intro h hin _; cases hin
      · intro h _ _; right; exact ⟨start, rfl⟩
  | FilterProcessed block height matched valid =>
      by_cases hfl : m.filter_height ≤ height
      · rw [Mapper.handle, process_filter_of_le hfl] at hh
        simp only [Option.some.injEq, Prod.mk.injEq] at hh
        obtain ⟨rfl, rfl⟩ := hh
        refine ⟨by simp, fun _ => rfl, ?_, ?_, ?_⟩
        · intro hb h hmem'
          cases matched with
          | false =>
              exact Nat.le_trans (hb h hmem') hfl
          | true =>
              have hmem'' : h ∈ hsInsert height m.pending := hmem'
              unfold hsInsert at hmem''
              by_cases hmem : height ∈ m.pending
              · rw [if_pos hmem] at hmem''
                exact Nat.le_trans (hb h hmem'') hfl
              · rw [if_neg hmem] at hmem''
                cases hmem'' with
                | head => exact Nat.le_refl _
                | tail _ htl => exact Nat.le_trans (hb h htl) hfl
        · intro h hin hout
          cases matched with
          | false => exact absurd hin hout
          | true =>
              have hin' : h ∈ hsInsert height m.pending := hin
              unfold hsInsert at hin'
              by_cases hmem : height ∈ m.pending
              · rw [if_pos hmem] at hin'; exact absurd hin' hout
              · rw [if_neg hmem] at hin'
                cases hin' with
                | head => exact ⟨block, valid, rfl, hfl, rfl⟩
                | tail _ htl => exact absurd htl hout
        · intro h hin hout
          exfalso
          apply hout
          cases matched with
          | false => exact hin
          | true =>
              show h ∈ hsInsert height m.pending
              unfold hsInsert
              split
              · exact hin
              · exact List.mem_cons_of_mem _ hin
      · rw [Mapper.handle, process_filter_none hfl] at hh
        cases hh
  | ChainSynced hash height =>
      simp only [Mapper.handle, Option.some.injEq, Prod.mk.injEq] at hh
      obtain ⟨rfl, rfl⟩ := hh
      exact ⟨by simp, fun _ => rfl, fun hb => hb,
        fun h hin hout => absurd hin hout, fun h hin hout => absurd hin hout⟩
  | Ready height filterHeight =>
      simp only [Mapper.handle, Option.some.injEq, Prod.mk.injEq] at hh
      obtain ⟨rfl, rfl⟩ := hh
      exact ⟨by simp, fun _ => rfl, fun hb => hb,
        fun h hin hout => absurd hin hout, fun h hin hout => absurd hin hout⟩
  | PeerConnected addr link =>
      simp only [Mapper.handle, Option.some.injEq, Prod.mk.injEq] at hh
      obtain ⟨rfl, rfl⟩ := hh
      exact ⟨by simp, fun _ => rfl, fun hb => hb,
        fun h hin hout => absurd hin hout, fun h hin hout => absurd hin hout⟩
  | PeerConnectionFailed addr error =>
      simp only [Mapper.handle, Option.some.injEq, Prod.mk.injEq] at hh
      obtain ⟨rfl, rfl⟩ := hh
      exact ⟨by simp, fun _ => rfl, fun hb => hb,
        fun h hin hout => absurd hin hout, fun h hin hout => absurd hin hout⟩
  | PeerNegotiated addr link services userAgent height version =>
      simp only [Mapper.handle, Option.some.injEq, Prod.mk.injEq] at hh
      obtain ⟨rfl, rfl⟩ := hh
      exact ⟨by simp, fun _ => rfl, fun hb => hb,
        fun h hin hout => absurd hin hout, fun h hin hout => absurd hin hout⟩
  | PeerDisconnected addr reason =>
      simp only [Mapper.handle, Option.some.injEq, Prod.mk.injEq] at hh
      obtain ⟨rfl, rfl⟩ := hh
      exact ⟨by simp, fun _ => rfl, fun hb => hb,
        fun h hin hout => absurd hin hout, fun h hin hout => absurd hin hout⟩
  | PeerHeightUpdated height =>
      simp only [Mapper.handle, Option.some.injEq, Prod.mk.injEq] at hh
      obtain ⟨rfl, rfl⟩ := hh
      exact ⟨by simp, fun _ => rfl, fun hb => hb,
        fun h hin hout => absurd hin hout, fun h hin hout => absurd hin hout⟩
  | BlockConnected header height =>
      simp only [Mapper.handle, Option.some.injEq, Prod.mk.injEq] at hh
      obtain ⟨rfl, rfl⟩ := hh
      exact ⟨by simp, fun _ => rfl, fun hb => hb,
        fun h hin hout => absurd hin hout, fun h hin hout => absurd hin hout⟩
  | BlockDisconnected header height =>
      simp only [Mapper.handle, Option.some.injEq, Prod.mk.injEq] at hh
      obtain ⟨rfl, rfl⟩ := hh
      exact ⟨by simp, fun _ => rfl, fun hb => hb,
        fun h hin hout => absurd hin hout, fun h hin hout => absurd hin hout⟩
  | Confirmed transaction height block =>
      simp only [Mapper.handle, Option.some.injEq, Prod.mk.injEq] at hh
      obtain ⟨rfl, rfl⟩ := hh
      exact ⟨by simp, fun _ => rfl, fun hb => hb,
        fun h hin hout => absurd hin hout, fun h hin hout => absurd hin hout⟩
  | Acknowledged txid peer =>
      simp only [Mapper.handle, Option.some.injEq, Prod.mk.injEq] at hh
      obtain ⟨rfl, rfl⟩ := hh
      exact ⟨by simp, fun _ => rfl, fun hb => hb,
        fun h hin hout => absurd hin hout, fun h hin hout => absurd hin hout⟩
  | Other =>
      simp only [Mapper.handle, Option.some.injEq, Prod.mk.injEq] at hh
      obtain ⟨rfl, rfl⟩ := hh
      exact ⟨by simp, fun _ => rfl, fun hb => hb,
        fun h hin hout => absurd hin hout, fun h hin hout => absurd hin hout⟩

theorem inv_new : Inv Mapper.new := by
  refine ⟨Nat.le_refl _, Nat.le_refl _, Nat.le_refl _, ?_⟩
  intro h hmem
  cases hmem

theorem inv_step {bh : Header → BlockHash} {m m' : Mapper} {e : FsmEvent}
    {evs : List Event} (hinv : Inv m)
    (hp : m.process bh e = some (m', evs)) : Inv m' := by
  obtain ⟨m1, evs1, hh, hbf, hsf, hd⟩ := process_some_elim hp
  have hpend : ∀ h ∈ m1.pending, h ≤ m1.filter_height :=
    (handle_facts hh).2.2.1 hinv.2.2.2
  have hrep : reportHeight m1 ≤ m1.filter_height := by
    unfold reportHeight
    split
    · exact Nat.le_refl _
    · exact hbf
  rcases hd with ⟨hlt, rfl, -⟩ | ⟨hle, rfl, -⟩
  · refine ⟨hbf, hrep, ?_, hpend⟩
    have : reportHeight { m1 with sync_height := reportHeight m1 }
        = reportHeight m1 := rfl
    rw [this]
  · exact ⟨hbf, hsf, hle, hpend⟩

theorem reachable_inv {bh : Header → BlockHash} {m : Mapper}
    (hre : Reachable bh m) : Inv m := by
  induction hre with
  | refl => exact inv_new
  | step _ hp ih => exact inv_step ih hp

/-! ### Further shared helper lemmas -/

theorem mem_hsInsert {x h : Height} {l : List Height} :
    x ∈ hsInsert h l ↔ x = h ∨ x ∈ l := by
  unfold hsInsert
  by_cases hm : h ∈ l
  · rw [if_pos hm]
    constructor
    · exact Or.inr
    · rintro (rfl | hx)
      · exact hm
      · exact hx
  · rw [if_neg hm]
    exact List.mem_cons

/-- Processing an unsolicited BlockProcessed event leaves the state
unchanged and emits only the fee estimate, when fees are present. -/
theorem unsolicited_frame {bh : Header → BlockHash} {m : Mapper}
    {blk : Block} {height : Height} {fees : Option Nat}
    (hinv : Inv m) (hnp : height ∉ m.pending) :
    m.process bh (FsmEvent.BlockProcessed blk height fees) =
      some (m, match fees with
               | some f => [Event.FeeEstimated (bh blk.header) height f]
               | none => []) := by
  have hh : m.handle bh (FsmEvent.BlockProcessed blk height fees)
      = some (m, match fees with
                 | some f => [Event.FeeEstimated (bh blk.header) height f]
                 | none => []) := by
    simp only [Mapper.handle, @process_block_of_not_mem bh m blk height hnp,
      List.nil_append]
  rw [process_handle_eq hh hinv.1 hinv.2.1,
    if_neg (Nat.not_lt.mpr hinv.2.2.1)]

theorem waitForPeersLoop_some_length {count : Nat} {required : ServiceFlags} :
    ∀ {events : List FsmEvent}
      {neg r : List (SocketAddr × Height × ServiceFlags)},
      waitForPeersLoop count required neg events = some r →
      r.length = count := by
  intro events
  induction events with
  | nil =>
      intro neg r h
      cases h
  | cons e rest ih =>
      intro neg r h
      cases e with
      | PeerNegotiated addr lnk services userAgent height version =>
          simp only [waitForPeersLoop] at h
          split at h <;>
            (split at h
             · next hlen =>
                 obtain rfl := Option.some.inj h
                 exact hlen
             · exact ih h)
      | _ =>
          simp only [waitForPeersLoop] at h
          exact ih h


theorem connectStep_some {addr : SocketAddr} {e : FsmEvent} {l : Link}
    (h : connectStep addr e = some l) :
    ∃ a, e = FsmEvent.PeerConnected a l ∧ connectMatches addr a = true := by
  cases e with
  | PeerConnected a lk =>
      simp only [connectStep] at h
      by_cases hm : connectMatches addr a = true
      · rw [if_pos hm] at h
        obtain rfl := Option.some.inj h
        exact ⟨a, rfl, hm⟩
      · rw [if_neg hm] at h
        cases h
  | _ =>
      simp only [connectStep] at h
      exact Option.noConfusion h

theorem connectStep_conn_none {addr b : SocketAddr} {lb : Link}
    (h : connectStep addr (FsmEvent.PeerConnected b lb) = none) :
    connectMatches addr b = false := by
  by_cases hm : connectMatches addr b = true
  · simp only [connectStep, if_pos hm] at h
    exact Option.noConfusion h
  · exact Bool.eq_false_iff.mpr hm

/-! ### Claim theorems -/

/-- Claim C2: on every state reached by a sequence of accepted protocol
events from Mapper::new, block_height is at most filter_height and
sync_height is at most filter_height. -/
theorem spv_height_invariants (bh : Header → BlockHash) (m : Mapper)
    (hre : Reachable bh m) :
    m.block_height ≤ m.filter_height ∧ m.sync_height ≤ m.filter_height :=
  ⟨(reachable_inv hre).1, (reachable_inv hre).2.1⟩

/-- Witness for C2: the invariants at the state reached after a matched
filter at height 4. -/
theorem spv_height_invariants_witness :
    (⟨0, 0, 4, 0, [4]⟩ : Mapper).block_height
        ≤ (⟨0, 0, 4, 0, [4]⟩ : Mapper).filter_height ∧
    (⟨0, 0, 4, 0, [4]⟩ : Mapper).sync_height
        ≤ (⟨0, 0, 4, 0, [4]⟩ : Mapper).filter_height :=
  spv_height_invariants hid _
    (Reachable.step Reachable.refl
      (show Mapper.new.process hid (.FilterProcessed 9 4 true true)
          = some (⟨0, 0, 4, 0, [4]⟩, [Event.FilterProcessed 4 true true 9])
        by decide))

/-- Claim C3: across any accepted event other than RescanStarted,
sync_height does not decrease. -/
theorem spv_sync_monotone (bh : Header → BlockHash) (m m' : Mapper)
    (e : FsmEvent) (evs : List Event)
    (hp : m.process bh e = some (m', evs))
    (hne : ∀ start, e ≠ FsmEvent.RescanStarted start) :
    m.sync_height ≤ m'.sync_height := by
  obtain ⟨m1, evs1, hh, -, -, hd⟩ := process_some_elim hp
  have hs : m1.sync_height = m.sync_height := (handle_facts hh).2.1 hne
  rcases hd with ⟨hlt, rfl, -⟩ | ⟨-, rfl, -⟩
  · exact Nat.le_of_lt (hs ▸ hlt)
  · rw [← hs]

/-- Witness for C3: sync_height rises from 0 to 5 across a processed
block at height 5. -/
theorem spv_sync_monotone_witness :
    (⟨0, 0, 5, 0, [5, 3]⟩ : Mapper).sync_height
      ≤ (⟨0, 5, 5, 5, [3]⟩ : Mapper).sync_height :=
  spv_sync_monotone hid _ _ (.BlockProcessed ⟨7, []⟩ 5 none) _
    (by decide :
      (⟨0, 0, 5, 0, [5, 3]⟩ : Mapper).process hid (.BlockProcessed ⟨7, []⟩ 5 none)
        = some (⟨0, 5, 5, 5, [3]⟩,
                [Event.BlockMatched 5 7 7 [], Event.Synced 5 0]))
    (fun _ h => FsmEvent.noConfusion h)

/-- Claim C7: processing RescanStarted{start} empties pending and sets
filter_height, sync_height and block_height to start; nothing is emitted. -/
theorem spv_rescan_reset (bh : Header → BlockHash) (m : Mapper)
    (start : Height) :
    m.process bh (FsmEvent.RescanStarted start) =
      some ({ tip := m.tip, sync_height := start, filter_height := start,
              block_height := start, pending := [] }, []) := by
  simp [Mapper.process, Mapper.handle, reportHeight]

/-- Claim C6: process_filter succeeds exactly under the asserted
precondition height >= filter_height, and then inserts the height into
pending when matched, advances filter_height to the height, emits exactly
one FilterProcessed event carrying height, matched, valid and the block
hash, and changes nothing else. -/
theorem spv_process_filter_spec (m : Mapper) (blk : BlockHash)
    (height : Height) (matched valid : Bool) :
    ((m.process_filter blk height matched valid).isSome = true ↔
      m.filter_height ≤ height) ∧
    (m.filter_height ≤ height →
      ∃ m1, m.process_filter blk height matched valid =
          some (m1, [Event.FilterProcessed height matched valid blk]) ∧
        m1.filter_height = height ∧
        (∀ x, x ∈ m1.pending ↔
          ((matched = true ∧ x = height) ∨ x ∈ m.pending)) ∧
        m1.tip = m.tip ∧ m1.sync_height = m.sync_height ∧
        m1.block_height = m.block_height) := by
  constructor
  · by_cases hfl : m.filter_height ≤ height
    · rw [process_filter_of_le hfl]
      simp [hfl]
    · rw [process_filter_none hfl]
      simp [hfl]
  · intro hfl
    refine ⟨_, process_filter_of_le hfl, rfl, ?_, rfl, rfl, rfl⟩
    intro x
    cases matched with
    | false => simp
    | true =>
        show x ∈ hsInsert height m.pending ↔ _
        rw [mem_hsInsert]
        simp

/-- Witness for C6: a matched filter at height 4 from the initial state. -/
theorem spv_process_filter_spec_witness :
    (Mapper.new.process_filter 9 4 true false).isSome = true :=
  (spv_process_filter_spec Mapper.new 9 4 true false).1.mpr (by decide)

/-- Claim C5: an unsolicited block (height not pending) is returned by
process_block as its hash with no state change and no emission, and the
surrounding process step leaves the whole state unchanged and emits
neither BlockMatched nor Synced (only a fee estimate when fees are
present). -/
theorem spv_unsolicited_block (bh : Header → BlockHash) (m : Mapper)
    (blk : Block) (height : Height) (fees : Option Nat)
    (hre : Reachable bh m) (hnp : height ∉ m.pending) :
    m.process_block bh blk height = some (m, [], bh blk.header) ∧
    m.process bh (FsmEvent.BlockProcessed blk height fees) =
      some (m, match fees with
               | some f => [Event.FeeEstimated (bh blk.header) height f]
               | none => []) :=
  ⟨process_block_of_not_mem hnp, unsolicited_frame (reachable_inv hre) hnp⟩

/-- Witness for C5: an unsolicited block at height 2 from the initial
state changes nothing and emits nothing. -/
theorem spv_unsolicited_block_witness :
    Mapper.new.process hid (.BlockProcessed ⟨7, []⟩ 2 none)
      = some (Mapper.new, []) :=
  (spv_unsolicited_block hid Mapper.new ⟨7, []⟩ 2 none Reachable.refl
    (by decide)).2

/-- Claim C10: a BlockProcessed event with fees always emits a FeeEstimated
event carrying the hash of the given block; when the block is unsolicited,
FeeEstimated is the only emission. -/
theorem spv_fee_estimated (bh : Header → BlockHash) (m m' : Mapper)
    (blk : Block) (height : Height) (f : Nat) (evs : List Event)
    (hre : Reachable bh m)
    (hp : m.process bh (FsmEvent.BlockProcessed blk height (some f))
      = some (m', evs)) :
    Event.FeeEstimated (bh blk.header) height f ∈ evs ∧
    (height ∉ m.pending →
      evs = [Event.FeeEstimated (bh blk.header) height f]) := by
  by_cases hmem : height ∈ m.pending
  · refine ⟨?_, fun hnp => absurd hmem hnp⟩
    obtain ⟨m1, evs1, hh, -, -, hd⟩ := process_some_elim hp
    by_cases hbl : m.block_height ≤ height
    · rw [Mapper.handle, process_block_of_mem hmem hbl] at hh
      simp only [Option.some.injEq, Prod.mk.injEq] at hh
      obtain ⟨-, rfl⟩ := hh
      rcases hd with ⟨-, -, rfl⟩ | ⟨-, -, rfl⟩ <;> simp
    · rw [Mapper.handle, process_block_none hmem hbl] at hh
      cases hh
  · have heq := @unsolicited_frame bh m blk height (some f)
      (reachable_inv hre) hmem
    rw [hp] at heq
    obtain ⟨-, h2⟩ := Prod.mk.injEq .. ▸ Option.some.inj heq
    exact ⟨h2 ▸ List.mem_singleton_self _, fun _ => h2⟩

/-- Witness for C10: fees on an unsolicited block at height 2 from the
initial state. -/
theorem spv_fee_estimated_witness :
    Event.FeeEstimated 7 2 42 ∈ [Event.FeeEstimated 7 2 42] ∧
    ((2 : Height) ∉ Mapper.new.pending →
      [Event.FeeEstimated 7 2 42] = [Event.FeeEstimated 7 2 42]) :=
  spv_fee_estimated hid Mapper.new Mapper.new ⟨7, []⟩ 2 42 _
    Reachable.refl (by decide)

/-- Claim C1 (amended): after the event-specific handling, the reporting
height is filter_height when pending is empty and block_height otherwise;
exactly when it exceeds sync_height, sync_height is set to it and a single
Synced event with that height and the current tip is appended; when
pending is empty the emitted height is filter_height, and otherwise it is
block_height (the two may coincide). -/
theorem spv_synced_emission (bh : Header → BlockHash) (m m' : Mapper)
    (e : FsmEvent) (evs : List Event)
    (hp : m.process bh e = some (m', evs)) :
    ∃ m1 evs1, m.handle bh e = some (m1, evs1) ∧
      (∀ ht tp, Event.Synced ht tp ∉ evs1) ∧
      (m1.sync_height < reportHeight m1 →
        m'.sync_height = reportHeight m1 ∧
        evs = evs1 ++ [Event.Synced (reportHeight m1) m1.tip] ∧
        (m1.pending = [] → reportHeight m1 = m1.filter_height) ∧
        (m1.pending ≠ [] → reportHeight m1 = m1.block_height)) ∧
      (reportHeight m1 ≤ m1.sync_height →
        m' = m1 ∧ evs = evs1) := by
  obtain ⟨m1, evs1, hh, -, -, hd⟩ := process_some_elim hp
  refine ⟨m1, evs1, hh, (handle_facts hh).1, ?_, ?_⟩
  · intro hlt
    rcases hd with ⟨-, rfl, rfl⟩ | ⟨hle, -, -⟩
    · refine ⟨rfl, rfl, ?_, ?_⟩
      · intro hemp
        unfold reportHeight
        rw [if_pos hemp]
      · intro hne
        unfold reportHeight
        rw [if_neg hne]
    · exact absurd hlt (Nat.not_lt.mpr hle)
  · intro hle
    rcases hd with ⟨hlt, -, -⟩ | ⟨-, rfl, rfl⟩
    · exact absurd hlt (Nat.not_lt.mpr hle)
    · exact ⟨rfl, rfl⟩

/-- Witness for C1: the emission step on a processed block at height 5. -/
theorem spv_synced_emission_witness :
    ∃ m1 evs1,
      (⟨0, 0, 5, 0, [5, 3]⟩ : Mapper).handle hid
          (.BlockProcessed ⟨7, []⟩ 5 none) = some (m1, evs1) ∧
      (∀ ht tp, Event.Synced ht tp ∉ evs1) ∧
      (m1.sync_height < reportHeight m1 →
        (⟨0, 5, 5, 5, [3]⟩ : Mapper).sync_height = reportHeight m1 ∧
        [Event.BlockMatched 5 7 7 [], Event.Synced 5 0]
          = evs1 ++ [Event.Synced (reportHeight m1) m1.tip] ∧
        (m1.pending = [] → reportHeight m1 = m1.filter_height) ∧
        (m1.pending ≠ [] → reportHeight m1 = m1.block_height)) ∧
      (reportHeight m1 ≤ m1.sync_height →
        (⟨0, 5, 5, 5, [3]⟩ : Mapper) = m1 ∧
        [Event.BlockMatched 5 7 7 [], Event.Synced 5 0] = evs1) :=
  spv_synced_emission hid _ _ (.BlockProcessed ⟨7, []⟩ 5 none) _ (by decide)

/-- Counterexample to C1 as stated: from the reachable state with
pending = [5, 3] (filters 3 and 5 matched, no block processed yet),
processing the block at height 5 emits Synced{5} while pending = [3] is
not empty at emission time and 5 equals filter_height, refuting the claim
that the emitted height equals filter_height only if pending is empty. -/
theorem spv_synced_iff_cex :
    Reachable hid ⟨0, 0, 5, 0, [5, 3]⟩ ∧
    (⟨0, 0, 5, 0, [5, 3]⟩ : Mapper).handle hid (.BlockProcessed ⟨7, []⟩ 5 none)
      = some (⟨0, 0, 5, 5, [3]⟩, [Event.BlockMatched 5 7 7 []]) ∧
    (⟨0, 0, 5, 0, [5, 3]⟩ : Mapper).process hid (.BlockProcessed ⟨7, []⟩ 5 none)
      = some (⟨0, 5, 5, 5, [3]⟩,
              [Event.BlockMatched 5 7 7 [], Event.Synced 5 0]) ∧
    (⟨0, 0, 5, 5, [3]⟩ : Mapper).pending ≠ [] ∧
    (⟨0, 0, 5, 5, [3]⟩ : Mapper).filter_height = 5 :=
  ⟨Reachable.step (Reachable.step Reachable.refl
      (show Mapper.new.process hid (.FilterProcessed 1 3 true true)
          = some (⟨0, 0, 3, 0, [3]⟩, [Event.FilterProcessed 3 true true 1])
        by decide))
      (show (⟨0, 0, 3, 0, [3]⟩ : Mapper).process hid (.FilterProcessed 2 5 true true)
          = some (⟨0, 0, 5, 0, [5, 3]⟩, [Event.FilterProcessed 5 true true 2])
        by decide),
    by decide, by decide, by decide, rfl⟩

/-- Claim C4 (amended): on every reachable state every pending height is at
most filter_height; a height enters pending only through a matched
FilterProcessed at that height, with the height at least the prior
filter_height and equal to the new filter_height; a height leaves pending
only through a BlockProcessed at that height — with the height at least
the prior block_height and equal to the new block_height — or through a
RescanStarted reset. -/
theorem spv_pending_lifecycle (bh : Header → BlockHash) (m : Mapper)
    (hre : Reachable bh m) :
    (∀ h ∈ m.pending, h ≤ m.filter_height) ∧
    (∀ e m' evs, m.process bh e = some (m', evs) →
      (∀ h, h ∈ m'.pending → h ∉ m.pending →
        ∃ blk valid, e = FsmEvent.FilterProcessed blk h true valid ∧
          m.filter_height ≤ h ∧ m'.filter_height = h) ∧
      (∀ h, h ∈ m.pending → h ∉ m'.pending →
        (∃ blk fees, e = FsmEvent.BlockProcessed blk h fees ∧
          m.block_height ≤ h ∧ m'.block_height = h) ∨
        (∃ start, e = FsmEvent.RescanStarted start))) := by
  refine ⟨(reachable_inv hre).2.2.2, ?_⟩
  intro e m' evs hp
  obtain ⟨m1, evs1, hh, -, hfl, hbl, hpend⟩ := process_some_frame hp
  constructor
  · intro h hin hout
    obtain ⟨blk, valid, he, hle, hfh⟩ :=
      (handle_facts hh).2.2.2.1 h (hpend ▸ hin) hout
    exact ⟨blk, valid, he, hle, by rw [hfl, hfh]⟩
  · intro h hin hout
    rcases (handle_facts hh).2.2.2.2 h hin (hpend ▸ hout) with
      ⟨blk, fees, he, hle, hbh⟩ | hr
    · exact Or.inl ⟨blk, fees, he, hle, by rw [hbl, hbh]⟩
    · exact Or.inr hr

/-- Witness for C4: the pending bound for the pending height 6 at the state
reached after a matched filter at height 6. -/
theorem spv_pending_lifecycle_witness :
    (6 : Height) ≤ (⟨0, 0, 6, 0, [6]⟩ : Mapper).filter_height :=
  (spv_pending_lifecycle hid _
    (Reachable.step Reachable.refl
      (show Mapper.new.process hid (.FilterProcessed 9 6 true true)
          = some (⟨0, 0, 6, 0, [6]⟩, [Event.FilterProcessed 6 true true 9])
        by decide))).1 6 (by decide)

/-- Counterexample to C4 as stated: the state with pending = [3] and
block_height = 5 is reachable (filters 3 and 5 matched, then the block at
height 5 arrived before the block at height 3), yet 3 is pending without
being strictly greater than block_height. -/
theorem spv_pending_bounds_cex :
    Reachable hid ⟨0, 5, 5, 5, [3]⟩ ∧
    (3 : Height) ∈ (⟨0, 5, 5, 5, [3]⟩ : Mapper).pending ∧
    ¬ (⟨0, 5, 5, 5, [3]⟩ : Mapper).block_height < 3 :=
  ⟨Reachable.step (Reachable.step (Reachable.step Reachable.refl
      (show Mapper.new.process hid (.FilterProcessed 1 3 true true)
          = some (⟨0, 0, 3, 0, [3]⟩, [Event.FilterProcessed 3 true true 1])
        by decide))
      (show (⟨0, 0, 3, 0, [3]⟩ : Mapper).process hid (.FilterProcessed 2 5 true true)
          = some (⟨0, 0, 5, 0, [5, 3]⟩, [Event.FilterProcessed 5 true true 2])
        by decide))
      (show (⟨0, 0, 5, 0, [5, 3]⟩ : Mapper).process hid (.BlockProcessed ⟨7, []⟩ 5 none)
          = some (⟨0, 5, 5, 5, [3]⟩,
                  [Event.BlockMatched 5 7 7 [], Event.Synced 5 0])
        by decide),
    by decide, by decide⟩

/-- Claim C8: wait_for_peers returns immediately — independently of the
event stream — when exactly count peers already match the required
services, returning them as (address, height, services) triples; and every
successful result has exactly count entries. -/
theorem handle_wait_for_peers_spec (count : Nat) (required : ServiceFlags)
    (negotiated : List Peer) :
    (negotiated.length = count →
      ∀ events, wait_for_peers count required negotiated events
        = some (negotiated.map fun p => (p.addr, p.height, p.services))) ∧
    (∀ events r, wait_for_peers count required negotiated events = some r →
      r.length = count) := by
  constructor
  · intro hlen events
    unfold wait_for_peers
    rw [if_pos hlen]
  · intro events r hr
    unfold wait_for_peers at hr
    split at hr
    · next hlen =>
        obtain rfl := Option.some.inj hr
        rw [List.length_map]
        exact hlen
    · exact waitForPeersLoop_some_length hr

/-- Witness for C8: one matching peer, requested count one: the result is
returned with no events consumed. -/
theorem handle_wait_for_peers_spec_witness :
    wait_for_peers 1 0 [⟨⟨1, 2⟩, 7, 5⟩] []
      = some [(⟨1, 2⟩, 7, 5)] :=
  (handle_wait_for_peers_spec 1 0 [⟨⟨1, 2⟩, 7, 5⟩]).1 (by decide) []

/-- Claim C9: connect(addr) returns the link of the first Connected event
whose address is addr, or — when addr's IP is unspecified — whose port
equals addr's port; and it returns a link only in that situation. -/
theorem handle_connect_spec (addr : SocketAddr) (events : List FsmEvent)
    (link : Link) :
    connect addr events = some link ↔
      ∃ pre a post,
        events = pre ++ FsmEvent.PeerConnected a link :: post ∧
        connectMatches addr a = true ∧
        ∀ e ∈ pre, ∀ b l, e = FsmEvent.PeerConnected b l →
          connectMatches addr b = false := by
  constructor
  · intro hc
    induction events with
    | nil => cases hc
    | cons e rest ih =>
        cases hstep : connectStep addr e with
        | some l =>
            rw [connect, List.findSome?_cons, hstep] at hc
            obtain rfl := Option.some.inj hc
            obtain ⟨a, rfl, hm⟩ := connectStep_some hstep
            exact ⟨[], a, rest, rfl, hm, by simp⟩
        | none =>
            rw [connect, List.findSome?_cons, hstep] at hc
            obtain ⟨pre, a2, post, heq, hm2, hpre⟩ := ih hc
            refine ⟨e :: pre, a2, post, by simp [heq], hm2, ?_⟩
            intro x hx b lb hxe
            rcases List.mem_cons.mp hx with rfl | hx2
            · subst hxe
              exact connectStep_conn_none hstep
            · exact hpre x hx2 b lb hxe
  · rintro ⟨pre, a, post, rfl, hm, hpre⟩
    induction pre with
    | nil =>
        rw [connect, List.nil_append, List.findSome?_cons]
        simp only [connectStep, hm, if_true]
    | cons e pre2 ih =>
        have hrec : connect addr (pre2 ++ FsmEvent.PeerConnected a link :: post)
            = some link :=
          ih fun x hx => hpre x (List.mem_cons_of_mem _ hx)
        have hnone : connectStep addr e = none := by
          cases e with
          | PeerConnected b lk =>
              have hb : connectMatches addr b = false :=
                hpre _ (List.mem_cons_self _ _) b lk rfl
              simp [connectStep, hb]
          | _ => rfl
        rw [List.cons_append, connect, List.findSome?_cons, hnone]
        exact hrec

/-- Witness for C9: connecting to the unspecified address 0 with port 9
resolves against a Connected event for a different IP with port 9. -/
theorem handle_connect_spec_witness :
    connect ⟨0, 9⟩ [FsmEvent.PeerConnected ⟨5, 9⟩ Link.outbound]
      = some Link.outbound :=
  (handle_connect_spec ⟨0, 9⟩ _ Link.outbound).mpr
    ⟨[], ⟨5, 9⟩, [], rfl, by decide, by simp⟩

end Nakamoto
